import Mathlib

namespace Kepler

/-
Shallow embedding of the kepler validation core (issued assets, block
construction and validation, compact-block hydration).  Definitions follow
src/core/src/core/issued_asset.rs, asset.rs and block.rs; parts of the
repository that are not in src (transaction.rs, committed.rs,
compact_block.rs, consensus.rs and the external secp collaborator) are
modelled from the spec, each marked in its doc comment.
-/

/-- Little-endian 8-byte encoding of a 64-bit unsigned integer, as produced by
the writer's call to supply.to_le_bytes in issued_asset.rs. -/
def toLEBytes8 (n : ℕ) : List ℕ :=
  (List.range 8).map (fun i => n / 256 ^ i % 256)

/-- Big-endian 8-byte encoding of a 64-bit unsigned integer. -/
def toBEBytes8 (n : ℕ) : List ℕ :=
  (List.range 8).map (fun i => n / 256 ^ (7 - i) % 256)

/-- Big-endian interpretation of a byte list, as performed by the reader's
call to u64.from_be_bytes in issued_asset.rs. -/
def fromBEBytes8 (l : List ℕ) : ℕ :=
  l.foldl (fun acc b => acc * 256 + b) 0

theorem toLEBytes8_eq_reverse (n : ℕ) :
    toLEBytes8 n = (toBEBytes8 n).reverse := rfl

theorem toLEBytes8_length (n : ℕ) : (toLEBytes8 n).length = 8 := rfl

theorem fromBE_toBE (n : ℕ) (h : n < 2 ^ 64) :
    fromBEBytes8 (toBEBytes8 n) = n := by
  simp only [toBEBytes8, fromBEBytes8, List.range_succ, List.range_zero,
    List.nil_append, List.cons_append, List.map_cons, List.map_nil,
    List.foldl_cons, List.foldl_nil, List.map_append]
  norm_num
  omega

theorem toBE_fromBE (l : List ℕ) (hlen : l.length = 8)
    (hbytes : ∀ b ∈ l, b < 256) :
    toBEBytes8 (fromBEBytes8 l) = l := by
  match l, hlen with
  | [a, b, c, d, e, f, g, h], _ =>
    simp only [List.mem_cons, List.not_mem_nil, or_false, forall_eq_or_imp,
      forall_eq] at hbytes
    obtain ⟨h1, h2, h3, h4, h5, h6, h7, h8⟩ := hbytes
    simp only [toBEBytes8, fromBEBytes8, List.range_succ, List.range_zero,
      List.nil_append, List.cons_append, List.map_cons, List.map_nil,
      List.foldl_cons, List.foldl_nil, List.map_append]
    norm_num
    constructor
    · omega
    constructor
    · omega
    constructor
    · omega
    constructor
    · omega
    constructor
    · omega
    constructor
    · omega
    constructor
    · omega
    omega

/-- A compressed secp256k1 public key.  Modelled from the spec: public keys
are opaque 33-byte compressed encodings handled by the external secp
collaborator; serialize_vec yields the 33 bytes and from_slice parses them
back. -/
abbrev PublicKey := { l : List ℕ // l.length = 33 }

/-- The 33-byte compressed serialization of a public key
(owner.serialize_vec(&secp, true) in issued_asset.rs). -/
def PublicKey.serializeVec (pk : PublicKey) : List ℕ := pk.val

/-- Parsing a compressed public key from a byte slice
(PublicKey::from_slice in issued_asset.rs); fails unless 33 bytes. -/
def PublicKey.fromSlice (l : List ℕ) : Option PublicKey :=
  if h : l.length = 33 then some ⟨l, h⟩ else none

/-- An asset identifier: a 64-byte generator encoding (asset.rs, Asset). -/
abbrev AssetT := { l : List ℕ // l.length = 64 }

/-- Modelled from the spec: GENERATOR_H, the canonical fixed generator
encoding for the native asset supplied by the external secp collaborator;
represented by an arbitrary fixed non-zero 64-byte value. -/
def GENERATOR_H : AssetT := ⟨List.replicate 63 0 ++ [1], by simp⟩

/-- Default asset (impl Default for Asset in asset.rs): the native-asset
generator GENERATOR_H. -/
def defaultAsset : AssetT := GENERATOR_H

/-- Modelled from the spec: an elliptic-curve commitment of the external secp
collaborator, embedded as a formal integer combination of generator symbols
(indexed by ℕ); byte-equality of commitments corresponds to equality of the
combination's evaluation. -/
abbrev Commitment := List (ℕ × ℤ)

/-- Evaluation of a formal combination at one generator symbol. -/
def evalC (c : Commitment) (k : ℕ) : ℤ :=
  (c.map (fun p => if p.1 = k then p.2 else 0)).sum

/-- Point addition of commitments (the homomorphic sum). -/
def cadd (a b : Commitment) : Commitment := a ++ b

/-- Point negation of a commitment. -/
def cneg (a : Commitment) : Commitment := a.map (fun p => (p.1, -p.2))

/-- The identity point (appears only through empty sums). -/
def czero : Commitment := []

/-- Generator symbols mentioned by a formal combination. -/
def ckeys (c : Commitment) : List ℕ := c.map (fun p => p.1)

/-- Byte-equality test on commitments: two encodings are equal exactly when
the underlying points (the evaluations) agree. -/
def cEqB (a b : Commitment) : Bool :=
  (ckeys a ++ ckeys b).all (fun k => evalC a k == evalC b k)

/-- Sum of a list of commitments. -/
def csumList (l : List Commitment) : Commitment := l.foldr cadd czero

/-- Modelled from the spec: secp commit_sum, the sum of the positive
commitments minus the sum of the negative ones. -/
def commitSum (pos neg : List Commitment) : Commitment :=
  cadd (csumList pos) (cneg (csumList neg))

/-- Base-256 value of an asset's 64-byte encoding, used to index generator
symbols. -/
def encAsset (a : AssetT) : ℕ := a.val.foldl (fun acc b => acc * 256 + b) 0

/-- Generator symbol of an asset. -/
def assetKey (a : AssetT) : ℕ := 2 * encAsset a + 2

/-- Distinguished non-identity symbol for the zero-value commitment under an
asset's generator (the spec asserts commit(0, G_asset) is a specific
non-identity point, not the curve identity). -/
def markerKey (a : AssetT) : ℕ := 2 * encAsset a + 3

/-- Modelled from the spec: secp commit_value_with_generator with zero
blinding; for a non-zero value it is value times the asset's generator, and
for value zero it is the spec's distinguished non-identity baseline point. -/
def commitValueWithGenerator (v : ℤ) (a : AssetT) : Commitment :=
  if v = 0 then [(markerKey a, 1)] else [(assetKey a, v)]

/-- Modelled from the spec: secp commit_value, a commitment to a value under
the native generator with zero blinding. -/
def commitValue (v : ℕ) : Commitment := commitValueWithGenerator v defaultAsset

theorem evalC_nil (k : ℕ) : evalC czero k = 0 := rfl

theorem evalC_append (a b : Commitment) (k : ℕ) :
    evalC (cadd a b) k = evalC a k + evalC b k := by
  simp [evalC, cadd]

theorem evalC_cneg (a : Commitment) (k : ℕ) :
    evalC (cneg a) k = -evalC a k := by
  induction a with
  | nil => simp [evalC, cneg]
  | cons p t ih =>
      simp only [evalC, cneg, List.map_cons, List.sum_cons] at ih ⊢
      split <;> omega

theorem evalC_eq_zero_of_not_mem (c : Commitment) (k : ℕ)
    (h : k ∉ ckeys c) : evalC c k = 0 := by
  induction c with
  | nil => rfl
  | cons p t ih =>
      simp only [ckeys, List.map_cons, List.mem_cons, not_or] at h
      simp only [evalC, List.map_cons, List.sum_cons]
      rw [if_neg (fun hh => h.1 hh.symm)]
      have := ih (by simpa [ckeys] using h.2)
      simpa [evalC] using this

theorem cEqB_eq_true_iff (a b : Commitment) :
    cEqB a b = true ↔ evalC a = evalC b := by
  constructor
  · intro h
    funext k
    by_cases hk : k ∈ ckeys a ++ ckeys b
    · have := List.all_eq_true.mp h k hk
      exact eq_of_beq this
    · simp only [List.mem_append, not_or] at hk
      rw [evalC_eq_zero_of_not_mem a k hk.1, evalC_eq_zero_of_not_mem b k hk.2]
  · intro h
    apply List.all_eq_true.mpr
    intro k _
    rw [h]
    exact beq_self_eq_true (evalC b k)

theorem cEqB_congr (a a2 b : Commitment) (h : evalC a = evalC a2) :
    cEqB a b = cEqB a2 b := by
  by_cases hb : evalC a2 = evalC b
  · rw [(cEqB_eq_true_iff a b).mpr (h.trans hb), (cEqB_eq_true_iff a2 b).mpr hb]
  · have h1 : cEqB a b ≠ true := fun hh => hb (h.symm.trans ((cEqB_eq_true_iff a b).mp hh))
    have h2 : cEqB a2 b ≠ true := fun hh => hb ((cEqB_eq_true_iff a2 b).mp hh)
    rw [Bool.eq_false_iff.mpr h1, Bool.eq_false_iff.mpr h2]

theorem cEqB_refl (a : Commitment) : cEqB a a = true :=
  (cEqB_eq_true_iff a a).mpr rfl

/-- Modelled from the spec: a Schnorr-style signature of the external secp
collaborator, embedded symbolically as the signing key's public key together
with the signed message; verification succeeds exactly for the matching pair. -/
structure Sig where
  signer : PublicKey
  msg : List ℕ
deriving DecidableEq

/-- Modelled from the spec: secp signature verification against a public key
over a message (secp.verify in issued_asset.rs). -/
def sigVerify (msg : List ℕ) (s : Sig) (pk : PublicKey) : Bool :=
  decide (s.signer = pk) && decide (s.msg = msg)

/-- The issued-asset registry record (issued_asset.rs, struct IssuedAsset). -/
structure IssuedAsset where
  supply : ℕ
  owner : PublicKey
  mintable : Bool
  asset : AssetT
deriving DecidableEq

/-- Modelled from the spec: the canonical message encoding of an issued-asset
record used for signing (IssuedAsset::to_bytes, which delegates to bincode):
an injective field-by-field byte encoding. -/
def IssuedAsset.toBytes (ia : IssuedAsset) : List ℕ :=
  toLEBytes8 ia.supply ++ ia.owner.val ++ (if ia.mintable then [1] else [0])
    ++ ia.asset.val

/-- Serialization of an issued asset (impl Writeable for IssuedAsset):
supply.to_le_bytes, the 33-byte compressed owner key, one mintable byte,
and the 64 asset bytes. -/
def IssuedAsset.write (ia : IssuedAsset) : List ℕ :=
  toLEBytes8 ia.supply ++ ia.owner.serializeVec
    ++ (if ia.mintable then [1] else [0]) ++ ia.asset.val

/-- Building an Asset from a fixed 64-byte array (Asset::from_bytes); the
length check models the fixed-size array requirement. -/
def assetFromBytes (l : List ℕ) : Option AssetT :=
  if h : l.length = 64 then some ⟨l, h⟩ else none

/-- Deserialization of an issued asset (impl Readable for IssuedAsset): read
106 fixed bytes, parse an 8-byte big-endian supply, a 33-byte compressed
owner key, one mintable byte compared against 1, and 64 asset bytes. -/
def IssuedAsset.read (b : List ℕ) : Option IssuedAsset :=
  if 106 ≤ b.length then
    let v := b.take 106
    match PublicKey.fromSlice ((v.drop 8).take 33) with
    | none => none
    | some owner =>
      match assetFromBytes ((v.drop 42).take 64) with
      | none => none
      | some asset =>
          some ⟨fromBEBytes8 (v.take 8), owner, v.getD 41 0 == 1, asset⟩
  else none

/-- An asset action (issued_asset.rs, enum AssetAction): this revision has
New, Issue and Withdraw variants. -/
inductive AssetAction where
  | new (asset : AssetT) (issuedAsset : IssuedAsset) (sig : Sig)
  | issue (asset : AssetT) (amount : ℕ) (sig : Sig)
  | withdraw (asset : AssetT) (amount : ℕ) (sig : Sig)
deriving DecidableEq

/-- Whether an action is a New action (AssetAction::is_new). -/
def AssetAction.isNew : AssetAction → Bool
  | .new _ _ _ => true
  | _ => false

/-- The asset an action targets (AssetAction::asset). -/
def AssetAction.assetOf : AssetAction → AssetT
  | .new a _ _ => a
  | .issue a _ _ => a
  | .withdraw a _ _ => a

/-- The supply delta magnitude of an action (AssetAction::amount). -/
def AssetAction.amount : AssetAction → ℕ
  | .new _ ia _ => ia.supply
  | .issue _ n _ => n
  | .withdraw _ n _ => n

/-- Signature validity of an action against a given public key
(AssetAction::valid): the signature must verify over the bincode encoding of
the action's payload. -/
def AssetAction.valid (act : AssetAction) (pk : PublicKey) : Bool :=
  match act with
  | .new _ ia s => sigVerify ia.toBytes s pk
  | .issue _ n s => sigVerify (toLEBytes8 n) s pk
  | .withdraw _ n s => sigVerify (toLEBytes8 n) s pk

/-- Local validation of a New action (AssetAction::validate_new): verifies the
embedded signature against the record's own owner key; the source panics on
other variants, which are unreachable from validate. -/
def AssetAction.validateNew (act : AssetAction) : Bool :=
  match act with
  | .new a ia s => (AssetAction.new a ia s).valid ia.owner
  | _ => false

/-- Local validation of an action (AssetAction::validate): only New actions
are checked locally; other variants defer to the caller and return true. -/
def AssetAction.validate (act : AssetAction) : Bool :=
  if act.isNew then act.validateNew else true

theorem take8_write (ia : IssuedAsset) :
    (IssuedAsset.write ia).take 8 = toLEBytes8 ia.supply := by
  rw [IssuedAsset.write, List.append_assoc, List.append_assoc]
  exact List.take_left' (toLEBytes8_length ia.supply)

theorem write_length (ia : IssuedAsset) :
    (IssuedAsset.write ia).length = 106 := by
  cases hm : ia.mintable <;>
    simp [IssuedAsset.write, toLEBytes8, PublicKey.serializeVec, hm,
      ia.owner.property, ia.asset.property]

theorem drop8_write (ia : IssuedAsset) :
    (IssuedAsset.write ia).drop 8 =
      ia.owner.val ++ (if ia.mintable then [1] else [0]) ++ ia.asset.val := by
  rw [IssuedAsset.write, List.append_assoc, List.append_assoc,
    List.drop_left' (toLEBytes8_length ia.supply), PublicKey.serializeVec,
    List.append_assoc]

theorem drop42_write (ia : IssuedAsset) :
    (IssuedAsset.write ia).drop 42 = ia.asset.val := by
  have h : (toLEBytes8 ia.supply ++ ia.owner.serializeVec
      ++ (if ia.mintable then [1] else [0])).length = 42 := by
    cases hm : ia.mintable <;>
      simp [toLEBytes8, PublicKey.serializeVec, hm, ia.owner.property]
  rw [IssuedAsset.write]
  exact List.drop_left' h

theorem getD41_write (ia : IssuedAsset) :
    (IssuedAsset.write ia).getD 41 0 = (if ia.mintable then 1 else 0) := by
  have h : (toLEBytes8 ia.supply ++ ia.owner.serializeVec).length = 41 := by
    simp [PublicKey.serializeVec, ia.owner.property, toLEBytes8]
  rw [IssuedAsset.write,
    List.append_assoc (toLEBytes8 ia.supply ++ ia.owner.serializeVec),
    List.getD_append_right _ _ 0 41 (le_of_eq h), h]
  cases ia.mintable <;> rfl

theorem read_write_aux (ia : IssuedAsset) :
    IssuedAsset.read (IssuedAsset.write ia) =
      some ⟨fromBEBytes8 (toLEBytes8 ia.supply), ia.owner, ia.mintable,
        ia.asset⟩ := by
  have hlen := write_length ia
  have htake : (IssuedAsset.write ia).take 106 = IssuedAsset.write ia :=
    List.take_of_length_le (le_of_eq hlen)
  have howner : ((IssuedAsset.write ia).drop 8).take 33 = ia.owner.val := by
    rw [drop8_write, List.append_assoc]
    exact List.take_left' ia.owner.property
  have hasset : ((IssuedAsset.write ia).drop 42).take 64 = ia.asset.val := by
    rw [drop42_write]
    exact List.take_of_length_le (le_of_eq ia.asset.property)
  rw [IssuedAsset.read, if_pos (le_of_eq hlen.symm)]
  simp only [htake, howner, hasset, take8_write, getD41_write,
    PublicKey.fromSlice, assetFromBytes, ia.owner.property, ia.asset.property,
    dif_pos]
  cases ia.mintable <;> rfl

/-- Example 33-byte public key used for concrete instances. -/
def exPk : PublicKey := ⟨List.replicate 33 2, by simp⟩

/-- Example 64-byte asset encoding used for concrete instances. -/
def exAsset1 : AssetT := ⟨List.replicate 64 0, by simp⟩

/-- Example issued-asset record used for concrete instances. -/
def exIssued1 : IssuedAsset := ⟨5, exPk, true, exAsset1⟩

/-- C1 counterexample: the serialized form of a concrete issued-asset record
is not 114 bytes long (it is 106 bytes: the supply is 8 bytes wide, not 16,
in this revision). -/
theorem issuedAsset_write_not_114_bytes :
    ¬ (IssuedAsset.write exIssued1).length = 114 := by decide

/-- C1 (amended): serializing an IssuedAsset produces a fixed 106-byte
layout — an 8-byte supply emitted in little-endian order, a 33-byte
compressed owner key, a 1-byte mintable flag, and a 64-byte asset encoding —
and deserializing reads the same 106-byte layout back, parsing the supply
field as big-endian. -/
theorem issuedAsset_write_read_layout_106 (ia : IssuedAsset) :
    (IssuedAsset.write ia).length = 106 ∧
    (IssuedAsset.write ia).take 8 = toLEBytes8 ia.supply ∧
    ((IssuedAsset.write ia).drop 8).take 33 = ia.owner.serializeVec ∧
    (IssuedAsset.write ia).getD 41 0 = (if ia.mintable then 1 else 0) ∧
    ((IssuedAsset.write ia).drop 42).take 64 = ia.asset.val ∧
    IssuedAsset.read (IssuedAsset.write ia) =
      some ⟨fromBEBytes8 (toLEBytes8 ia.supply), ia.owner, ia.mintable,
        ia.asset⟩ := by
  refine ⟨write_length ia, take8_write ia, ?_, getD41_write ia, ?_,
    read_write_aux ia⟩
  · rw [drop8_write, List.append_assoc]
    exact List.take_left' ia.owner.property
  · rw [drop42_write]
    exact List.take_of_length_le (le_of_eq ia.asset.property)

theorem toLEBytes8_bytes_lt (s : ℕ) : ∀ b ∈ toLEBytes8 s, b < 256 := by
  intro b hb
  simp only [toLEBytes8, List.mem_map, List.mem_range] at hb
  obtain ⟨i, _, rfl⟩ := hb
  exact Nat.mod_lt _ (by norm_num)

/-- C2: writing an IssuedAsset and reading the bytes back yields a record
whose owner, mintable flag and asset equal the originals but whose supply is
the byte-reversed original supply (the writer emits little-endian, the reader
parses big-endian); the record is restored exactly when the supply's 8-byte
encoding is a palindrome. -/
theorem issuedAsset_write_read_supply_byte_reversed (ia : IssuedAsset)
    (h : ia.supply < 2 ^ 64) :
    IssuedAsset.read (IssuedAsset.write ia) =
      some ⟨fromBEBytes8 ((toBEBytes8 ia.supply).reverse), ia.owner,
        ia.mintable, ia.asset⟩ ∧
    (IssuedAsset.read (IssuedAsset.write ia) = some ia ↔
      toLEBytes8 ia.supply = (toLEBytes8 ia.supply).reverse) := by
  constructor
  · rw [read_write_aux ia, ← toLEBytes8_eq_reverse]
  · rw [read_write_aux ia]
    constructor
    · intro hsome
      have hsup : fromBEBytes8 (toLEBytes8 ia.supply) = ia.supply := by
        have := Option.some.inj hsome
        exact congrArg IssuedAsset.supply this
      have hrt := toBE_fromBE (toLEBytes8 ia.supply) (toLEBytes8_length ia.supply)
        (toLEBytes8_bytes_lt ia.supply)
      rw [hsup] at hrt
      calc toLEBytes8 ia.supply = (toBEBytes8 ia.supply).reverse :=
            toLEBytes8_eq_reverse ia.supply
        _ = (toLEBytes8 ia.supply).reverse := by rw [hrt]
    · intro hpal
      have h1 : (toLEBytes8 ia.supply).reverse = toBEBytes8 ia.supply := by
        rw [toLEBytes8_eq_reverse, List.reverse_reverse]
      rw [hpal.trans h1, fromBE_toBE ia.supply h]

/-- C2 witness: the round-trip law instantiated at a concrete record. -/
theorem issuedAsset_write_read_supply_byte_reversed_witness :
    exIssued1.supply < 2 ^ 64 ∧
    (IssuedAsset.read (IssuedAsset.write exIssued1) =
      some ⟨fromBEBytes8 ((toBEBytes8 exIssued1.supply).reverse),
        exIssued1.owner, exIssued1.mintable, exIssued1.asset⟩ ∧
    (IssuedAsset.read (IssuedAsset.write exIssued1) = some exIssued1 ↔
      toLEBytes8 exIssued1.supply = (toLEBytes8 exIssued1.supply).reverse)) :=
  ⟨by decide, issuedAsset_write_read_supply_byte_reversed exIssued1 (by decide)⟩

/-- C9: local validation of an asset action checks a signature only for New
actions — against the embedded owner key over the canonical encoding of the
embedded record — and returns true unconditionally for Issue and Withdraw;
a New action signed by a key other than the embedded owner fails. -/
theorem assetAction_validate_local_only_new (a : AssetT) (ia : IssuedAsset)
    (n : ℕ) (s : Sig) (pk : PublicKey) (m : List ℕ) :
    (AssetAction.issue a n s).validate = true ∧
    (AssetAction.withdraw a n s).validate = true ∧
    (AssetAction.new a ia s).validate = sigVerify ia.toBytes s ia.owner ∧
    (AssetAction.new a ia ⟨pk, m⟩).validate =
      (decide (pk = ia.owner) && decide (m = ia.toBytes)) :=
  ⟨rfl, rfl, rfl, rfl⟩

/-- Output features (transaction.rs, not in src): plain or coinbase. -/
inductive OutputFeatures where
  | plain
  | coinbase
deriving DecidableEq

/-- Kernel features (transaction.rs, not in src; variants as matched in
block.rs): plain with fee, coinbase, or height-locked with fee and
lock height. -/
inductive KernelFeatures where
  | plain (fee : ℕ)
  | coinbase
  | heightLocked (fee : ℕ) (lockHeight : ℕ)
deriving DecidableEq

/-- Fee carried by kernel features. -/
def KernelFeatures.fee : KernelFeatures → ℕ
  | .plain f => f
  | .coinbase => 0
  | .heightLocked f _ => f

/-- A transaction input (transaction.rs, not in src): features and the
commitment being spent. -/
structure Input where
  features : OutputFeatures
  commit : Commitment
deriving DecidableEq

/-- A transaction output (transaction.rs, not in src): features, commitment
and an opaque range proof. -/
structure Output where
  features : OutputFeatures
  commit : Commitment
  proof : ℕ
deriving DecidableEq

/-- Whether an output is coinbase-flagged (Output::is_coinbase). -/
def Output.isCoinbase (o : Output) : Bool := o.features == OutputFeatures.coinbase

/-- A transaction kernel (transaction.rs, not in src): features and the
excess commitment. -/
structure TxKernel where
  features : KernelFeatures
  excess : Commitment
deriving DecidableEq

/-- Whether a kernel is coinbase-flagged (TxKernel::is_coinbase). -/
def TxKernel.isCoinbase (k : TxKernel) : Bool := k.features == KernelFeatures.coinbase

/-- A transaction body (transaction.rs, not in src): inputs, outputs,
kernels and asset actions. -/
structure TransactionBody where
  inputs : List Input
  outputs : List Output
  kernels : List TxKernel
  assets : List AssetAction
deriving DecidableEq

/-- A transaction (transaction.rs, not in src): a kernel blinding offset
and a body.  Blinding factors are modelled as integers. -/
structure Transaction where
  offset : ℤ
  body : TransactionBody
deriving DecidableEq

/-- Modelled from the spec: TransactionBody::init assembles a body from its
four part lists; per the spec the body contract is set algebra, not list
mutation order, so the sort step is omitted. -/
def TransactionBody.init (ins : List Input) (outs : List Output)
    (kerns : List TxKernel) (assets : List AssetAction)
    (_verifySorted : Bool) : TransactionBody :=
  ⟨ins, outs, kerns, assets⟩

/-- Modelled from the spec: the total fee of a body, the sum of its kernels'
fees. -/
def TransactionBody.fee (b : TransactionBody) : ℕ :=
  (b.kernels.map (fun k => k.features.fee)).sum

/-- The issuance overage contributed by one asset action, a commitment to its
supply delta under the action's own generator (positive for New and Issue,
negative for Withdraw). -/
def AssetAction.overage : AssetAction → Commitment
  | .new a ia _ => commitValueWithGenerator ia.supply a
  | .issue a n _ => commitValueWithGenerator n a
  | .withdraw a n _ => cneg (commitValueWithGenerator n a)

/-- Modelled from the spec: TransactionBody::mint_overage (transaction.rs,
not in src) — the accumulated issuance-overage commitment contributed by the
body's asset actions, None when the body carries no actions. -/
def TransactionBody.mintOverageList (assets : List AssetAction) :
    Option Commitment :=
  if assets.isEmpty then none
  else some (assets.foldr (fun a acc => cadd a.overage acc) czero)

/-- Modelled from the spec: transaction::cut_through (transaction.rs, not in
src) — remove every output spent by an input of the same body and every
input that spends such an output, matched by commitment byte-equality,
preserving the relative order of the remaining items. -/
def cutThroughLists (ins : List Input) (outs : List Output) :
    List Input × List Output :=
  (ins.filter (fun i => !(outs.any (fun o => cEqB i.commit o.commit))),
   outs.filter (fun o => !(ins.any (fun i => cEqB i.commit o.commit))))

/-- Errors thrown by block validation (block.rs, enum Error); payloads of
wrapped collaborator errors are omitted. -/
inductive Error where
  | KernelSumMismatch
  | InvalidTotalKernelSum
  | CoinbaseSumMismatch
  | TooHeavy
  | WeightExceeded
  | InvalidBlockVersion (v : ℕ)
  | InvalidBlockTime
  | InvalidPow
  | KernelLockHeight (h : ℕ)
  | Transaction
  | Secp
  | Keychain
  | MerkleProof
  | Committed
  | CutThrough
  | Serialization
  | Other
deriving DecidableEq

/-- Serialization errors (ser.rs, not in src; the variants used by the
untrusted-header path in block.rs). -/
inductive SerError where
  | CorruptedData
  | InvalidBlockVersion
  | IOErr
deriving DecidableEq

/-- Modelled from the spec: consensus::BLOCK_TIME_SEC, the block interval in
seconds. -/
def BLOCK_TIME_SEC : ℤ := 60

/-- Modelled from the spec: the reward-for-height oracle consensus::reward;
the exact schedule lives outside src, only positivity matters here. -/
def consensusReward (_height : ℕ) (fees : ℕ) : ℕ := 60000000000 + fees

/-- Modelled from the spec: the hard-fork version oracle
consensus::header_version. -/
def headerVersion (_height : ℕ) : ℕ := 1

/-- Proof of work and related data (pow.rs, not in src): total difficulty
and the primary/secondary form of the proof, modelled as fields. -/
structure ProofOfWork where
  totalDifficulty : ℕ
  secondaryScaling : ℕ
  isPrimary : Bool
  isSecondary : Bool
deriving DecidableEq

/-- Default proof of work, all zeroed. -/
def defaultPow : ProofOfWork := ⟨0, 0, false, false⟩

/-- A block header (block.rs, struct BlockHeader); hashes are modelled as
opaque naturals, timestamps as integer seconds, blinding factors as
integers. -/
structure BlockHeader where
  version : ℕ
  height : ℕ
  prevHash : ℕ
  prevRoot : ℕ
  timestamp : ℤ
  outputRoot : ℕ
  rangeProofRoot : ℕ
  kernelRoot : ℕ
  issueRoot : ℕ
  totalKernelOffset : ℤ
  outputMmrSize : ℕ
  kernelMmrSize : ℕ
  issueMmrSize : ℕ
  totalIssueOverage : Commitment
  pow : ProofOfWork
deriving DecidableEq

/-- Modelled from the spec: header hashing lives with the external hashing
collaborator; the hash value is irrelevant to the claims. -/
def headerHash (_h : BlockHeader) : ℕ := 0

/-- The zero-overage baseline (block.rs, ZERO_OVERAGE_COMMITMENT): the
commitment to value 0 under the default asset's generator. -/
def ZERO_OVERAGE_COMMITMENT : Commitment :=
  commitValueWithGenerator 0 defaultAsset

/-- Default block header (impl Default for BlockHeader): everything zeroed,
total issue overage set to the zero-overage baseline. -/
def defaultBlockHeader : BlockHeader :=
  ⟨1, 0, 0, 0, 0, 0, 0, 0, 0, 0, 0, 0, 0, ZERO_OVERAGE_COMMITMENT, defaultPow⟩

/-- Folding a new issuance commitment into a header's running overage
(BlockHeader::add_issue_overage): replace the zero-overage baseline, else
take the commitment sum with the accumulated overage. -/
def BlockHeader.addIssueOverage (h : BlockHeader) (issueOverage : Commitment) :
    Except Error Commitment :=
  if cEqB h.totalIssueOverage ZERO_OVERAGE_COMMITMENT then .ok issueOverage
  else .ok (commitSum [h.totalIssueOverage, issueOverage] [])

/-- The overage used when verifying a block's kernel sums
(BlockHeader::overage): zero minus the reward for its height. -/
def BlockHeader.overage (h : BlockHeader) : ℤ :=
  -(consensusReward h.height 0 : ℤ)

/-- Environment of an untrusted header read: current time and the external
version-validity and PoW size-verification callbacks. -/
structure HdrEnv where
  now : ℤ
  validVersion : ℕ → ℕ → Bool
  verifySizeOk : BlockHeader → Bool

/-- Untrusted deserialization checks of a block header (impl Readable for
UntrustedBlockHeader in block.rs), applied to an already-parsed header:
reject far-future timestamps, invalid versions for the height, proofs of
work of neither primary nor secondary form, and size-verification failures. -/
def untrustedBlockHeaderRead (env : HdrEnv) (h : BlockHeader) :
    Except SerError BlockHeader :=
  if h.timestamp > env.now + 12 * BLOCK_TIME_SEC then .error .CorruptedData
  else if !(env.validVersion h.height h.version) then
    .error .InvalidBlockVersion
  else if !h.pow.isPrimary && !h.pow.isSecondary then .error .CorruptedData
  else if !(env.verifySizeOk h) then .error .CorruptedData
  else .ok h

/-- Example environment whose version callback rejects everything. -/
def exEnvBadVersion : HdrEnv := ⟨1000000, fun _ _ => false, fun _ => true⟩

/-- C3 counterexample: a header whose only failing untrusted-read check is
the version check is rejected with InvalidBlockVersion, a distinct error
from CorruptedData, so not every early failure surfaces as the single
corrupted-data error. -/
theorem untrustedHeaderRead_version_error_distinct :
    untrustedBlockHeaderRead exEnvBadVersion defaultBlockHeader =
      .error SerError.InvalidBlockVersion ∧
    SerError.InvalidBlockVersion ≠ SerError.CorruptedData :=
  ⟨rfl, fun hcontra => SerError.noConfusion hcontra⟩

/-- C3 (amended): untrusted header deserialization rejects far-future
timestamps, invalid versions, malformed proof-of-work and size-verification
failures before any further processing; the timestamp and proof-of-work
failures surface as the corrupted-data error, but an invalid version
surfaces as the distinct InvalidBlockVersion error. -/
theorem untrustedHeaderRead_error_taxonomy (env : HdrEnv) (h : BlockHeader) :
    (untrustedBlockHeaderRead env h = .ok h ↔
      ¬ h.timestamp > env.now + 12 * BLOCK_TIME_SEC ∧
      env.validVersion h.height h.version = true ∧
      (h.pow.isPrimary = true ∨ h.pow.isSecondary = true) ∧
      env.verifySizeOk h = true) ∧
    (untrustedBlockHeaderRead env h = .error SerError.InvalidBlockVersion ↔
      ¬ h.timestamp > env.now + 12 * BLOCK_TIME_SEC ∧
      env.validVersion h.height h.version = false) ∧
    (untrustedBlockHeaderRead env h = .error SerError.CorruptedData ↔
      h.timestamp > env.now + 12 * BLOCK_TIME_SEC ∨
      (¬ h.timestamp > env.now + 12 * BLOCK_TIME_SEC ∧
        env.validVersion h.height h.version = true ∧
        ((h.pow.isPrimary = false ∧ h.pow.isSecondary = false) ∨
          ((h.pow.isPrimary = true ∨ h.pow.isSecondary = true) ∧
            env.verifySizeOk h = false)))) := by
  unfold untrustedBlockHeaderRead
  cases hp : h.pow.isPrimary <;> cases hs : h.pow.isSecondary <;>
    split_ifs with h1 h2 h3 h4 <;> simp_all

/-- C6: the default (genesis-like) header's total issue overage is the
commitment to value 0 under the native asset generator — a non-identity
point in the spec's commitment model — and this baseline is the accumulator
replaced when the first issuance overage is folded into a header. -/
theorem defaultHeader_zero_overage_baseline :
    defaultBlockHeader.totalIssueOverage = ZERO_OVERAGE_COMMITMENT ∧
    ZERO_OVERAGE_COMMITMENT = commitValueWithGenerator 0 defaultAsset ∧
    evalC ZERO_OVERAGE_COMMITMENT ≠ evalC czero ∧
    (∀ c : Commitment, defaultBlockHeader.addIssueOverage c = .ok c) := by
  refine ⟨rfl, rfl, ?_, ?_⟩
  · intro hcontra
    have hpt := congrFun hcontra (markerKey defaultAsset)
    simp [ZERO_OVERAGE_COMMITMENT, commitValueWithGenerator, evalC, czero]
      at hpt
  · intro c
    simp [BlockHeader.addIssueOverage, defaultBlockHeader, cEqB_refl]

/-- A full block (block.rs, struct Block): a header and a body. -/
structure Block where
  header : BlockHeader
  body : TransactionBody
deriving DecidableEq

/-- Input commitments of a block (impl Committed for Block). -/
def Block.inputsCommitted (b : Block) : List Commitment :=
  b.body.inputs.map (fun i => i.commit)

/-- Output commitments of a block (impl Committed for Block). -/
def Block.outputsCommitted (b : Block) : List Commitment :=
  b.body.outputs.map (fun o => o.commit)

/-- Kernel excess commitments of a block (impl Committed for Block). -/
def Block.kernelsCommitted (b : Block) : List Commitment :=
  b.body.kernels.map (fun k => k.excess)

/-- Modelled from the spec: committed::sum_kernel_offsets (committed.rs, not
in src) — the sum of positive blinding offsets minus the negative ones. -/
def sumKernelOffsets (pos neg : List ℤ) : ℤ := pos.sum - neg.sum

/-- Modelled from the spec: transaction::aggregate (transaction.rs, not in
src) — combine several transactions into one, concatenating the body parts
and summing the kernel offsets. -/
def aggregate (txs : List Transaction) : Transaction :=
  ⟨(txs.map (fun t => t.offset)).sum,
   ⟨txs.flatMap (fun t => t.body.inputs),
    txs.flatMap (fun t => t.body.outputs),
    txs.flatMap (fun t => t.body.kernels),
    txs.flatMap (fun t => t.body.assets)⟩⟩

/-- Appending an output to a transaction (Transaction::with_output). -/
def Transaction.withOutput (tx : Transaction) (o : Output) : Transaction :=
  ⟨tx.offset, ⟨tx.body.inputs, tx.body.outputs ++ [o], tx.body.kernels,
    tx.body.assets⟩⟩

/-- Appending a kernel to a transaction (Transaction::with_kernel). -/
def Transaction.withKernel (tx : Transaction) (k : TxKernel) : Transaction :=
  ⟨tx.offset, ⟨tx.body.inputs, tx.body.outputs,
    tx.body.kernels ++ [k], tx.body.assets⟩⟩

/-- The mint overage of a block's body (TransactionBody::mint_overage as
used by Block::mint_overage and Block::from_reward). -/
def Block.mintOverage (b : Block) : Except Error (Option Commitment) :=
  .ok (TransactionBody.mintOverageList b.body.assets)

/-- Cut-through of a block (Block::cut_through): eliminate matched
input/output pairs of the body and rebuild it, keeping the header. -/
def Block.cutThrough (b : Block) : Except Error Block :=
  let p := cutThroughLists b.body.inputs b.body.outputs
  .ok ⟨b.header, TransactionBody.init p.1 p.2 b.body.kernels b.body.assets
    false⟩

/-- Modelled from the spec: full body validation (weights, sorting, kernel
signatures and range proofs) runs through the externally supplied verifier
cache, abstracted as a boolean oracle, plus the local asset-action
signature checks of the issuance protocol. -/
def bodyValidate (verifierOk : Bool) (b : TransactionBody) :
    Except Error Unit :=
  if !verifierOk then .error .Transaction
  else if !(b.assets.all (fun a => a.validate)) then .error .Transaction
  else .ok ()

/-- Kernel lock-height scan (Block::verify_kernel_lock_heights): no kernel
may have a lock height above the block's height. -/
def checkLocks (height : ℕ) : List TxKernel → Except Error Unit
  | [] => .ok ()
  | k :: ks =>
    match k.features with
    | .heightLocked _ lh =>
        if height < lh then .error (.KernelLockHeight lh)
        else checkLocks height ks
    | _ => checkLocks height ks

/-- Kernel lock-height check of a block. -/
def Block.verifyKernelLockHeights (b : Block) : Except Error Unit :=
  checkLocks b.header.height b.body.kernels

/-- Coinbase check (Block::verify_coinbase): the sum of coinbase-flagged
kernels must equal the sum of coinbase-flagged outputs adjusted by the
reward for the block's height and fees. -/
def Block.verifyCoinbase (b : Block) : Except Error Unit :=
  let cbOuts := b.body.outputs.filter (fun o => o.isCoinbase)
  let cbKerns := b.body.kernels.filter (fun k => k.isCoinbase)
  let overCommit := commitValue (consensusReward b.header.height b.body.fee)
  let outAdjustSum := commitSum (cbOuts.map (fun o => o.commit)) [overCommit]
  let kernsSum := commitSum (cbKerns.map (fun k => k.excess)) []
  if cEqB kernsSum outAdjustSum then .ok () else .error .CoinbaseSumMismatch

/-- Per-block kernel offset (Block::block_kernel_offset): the additive
identity when the block's total offset equals the previous one, else their
difference through sum_kernel_offsets. -/
def Block.blockKernelOffset (b : Block) (prevKernelOffset : ℤ) : ℤ :=
  if b.header.totalKernelOffset = prevKernelOffset then 0
  else sumKernelOffsets [b.header.totalKernelOffset] [prevKernelOffset]

/-- Modelled from the spec: a pure blinding commitment offset·G of the
external secp collaborator. -/
def blindingGenCommit (z : ℤ) : Commitment := [(0, z)]

/-- Modelled from the spec: Committed::sum_commitments (committed.rs, not in
src) — outputs minus inputs, with the signed native-asset overage moved to
the appropriate side. -/
def sumCommitments (ins outs : List Commitment) (overage : ℤ) : Commitment :=
  let outsAdj := if 0 < overage then outs ++ [commitValue overage.toNat]
    else outs
  let insAdj := if overage < 0 then ins ++ [commitValue (-overage).toNat]
    else ins
  commitSum outsAdj insAdj

/-- Modelled from the spec: Committed::verify_kernel_sums (committed.rs, not
in src) — the utxo sum must equal the kernel-excess sum plus the blinding
offset and any issuance overage; returns the utxo sum and the kernel sum. -/
def verifyKernelSums (ins outs kerns : List Commitment) (overage : ℤ)
    (mint : Option Commitment) (offset : ℤ) :
    Except Error (Commitment × Commitment) :=
  let utxoSum := sumCommitments ins outs overage
  let kernelSum := csumList kerns
  let kernelSumPlusOffset :=
    if offset = 0 then kernelSum else cadd kernelSum (blindingGenCommit offset)
  let rhs := match mint with
    | none => kernelSumPlusOffset
    | some m => cadd kernelSumPlusOffset m
  if cEqB utxoSum rhs then .ok (utxoSum, kernelSum)
  else .error .KernelSumMismatch

/-- Full block validation (Block::validate): body validation through the
verifier oracle, kernel lock heights, the coinbase check, then the
kernel-sum engine including any mint overage; returns the verified
kernel-excess sum. -/
def Block.validate (b : Block) (prevKernelOffset : ℤ) (verifierOk : Bool) :
    Except Error Commitment :=
  match bodyValidate verifierOk b.body with
  | .error e => .error e
  | .ok _ =>
  match b.verifyKernelLockHeights with
  | .error e => .error e
  | .ok _ =>
  match b.verifyCoinbase with
  | .error e => .error e
  | .ok _ =>
  match b.mintOverage with
  | .error e => .error e
  | .ok mintOv =>
  match verifyKernelSums b.inputsCommitted b.outputsCommitted
      b.kernelsCommitted b.header.overage mintOv
      (b.blockKernelOffset prevKernelOffset) with
  | .error e => .error e
  | .ok r => .ok r.2

/-- Block construction (Block::from_reward): aggregate the transactions,
append the reward output and kernel, carry the previous total kernel offset
and total issue overage forward (folding in any mint overage), then apply
cut-through.  The wall-clock timestamp is passed explicitly. -/
def fromReward (now : ℤ) (prev : BlockHeader) (txs : List Transaction)
    (rewardOut : Output) (rewardKern : TxKernel) (difficulty : ℕ) :
    Except Error Block :=
  let aggTx := ((aggregate txs).withOutput rewardOut).withKernel rewardKern
  let totalKernelOffset :=
    sumKernelOffsets [aggTx.offset, prev.totalKernelOffset] []
  match (match TransactionBody.mintOverageList aggTx.body.assets with
         | some io => prev.addIssueOverage io
         | none => Except.ok prev.totalIssueOverage) with
  | .error e => .error e
  | .ok totalIssueOverage =>
  Block.cutThrough
    ⟨{ defaultBlockHeader with
        version := headerVersion (prev.height + 1)
        height := prev.height + 1
        timestamp := now
        prevHash := headerHash prev
        totalKernelOffset := totalKernelOffset
        pow := { defaultPow with
          totalDifficulty := difficulty + prev.pow.totalDifficulty }
        totalIssueOverage := totalIssueOverage },
      aggTx.body⟩

/-- A compact block (compact_block.rs, not in src; fields as used by
Block::hydrate_from and described by the spec): the header, the coinbase
outputs and kernels in full, a short-id nonce and the kernel short ids. -/
structure CompactBlock where
  header : BlockHeader
  nonce : ℕ
  outFull : List Output
  kernFull : List TxKernel
  kernIds : List ℕ
deriving DecidableEq

/-- Modelled from the spec: HashSet::extend — set-semantics accumulation of
new elements, with a deterministic first-occurrence order. -/
def hsExtend {α : Type} [DecidableEq α] (l : List α) (xs : List α) :
    List α :=
  xs.foldl (fun acc x => if x ∈ acc then acc else acc ++ [x]) l

/-- Hydration of a compact block (Block::hydrate_from): collect the
transactions' inputs, outputs, kernels and asset actions with set
semantics, add the compact block's coinbase outputs and kernels, rebuild a
body and apply cut-through, keeping the compact block's header; no
cryptographic verification is performed. -/
def hydrateFrom (cb : CompactBlock) (txs : List Transaction) :
    Except Error Block :=
  let allInputs := txs.foldl (fun s tx => hsExtend s tx.body.inputs) []
  let allOutputs := txs.foldl (fun s tx => hsExtend s tx.body.outputs) []
  let allKernels := txs.foldl (fun s tx => hsExtend s tx.body.kernels) []
  let allAssets := txs.foldl (fun s tx => hsExtend s tx.body.assets) []
  let allOutputs2 := hsExtend allOutputs cb.outFull
  let allKernels2 := hsExtend allKernels cb.kernFull
  Block.cutThrough
    ⟨cb.header, TransactionBody.init allInputs allOutputs2 allKernels2
      allAssets false⟩

theorem cadd_czero (x : Commitment) : cadd x czero = x := List.append_nil x

theorem cEqB_value_marker_false (v : ℤ) (a b : AssetT) (hv : v ≠ 0) :
    cEqB (commitValueWithGenerator v a) (commitValueWithGenerator 0 b)
      = false := by
  have hk : assetKey a ≠ markerKey b := by
    simp only [assetKey, markerKey]
    omega
  apply Bool.eq_false_iff.mpr
  intro htrue
  have hfun := (cEqB_eq_true_iff _ _).mp htrue
  have h2 := congrFun hfun (markerKey b)
  simp [commitValueWithGenerator, hv, evalC, hk] at h2

theorem fromReward_sole_new (now : ℤ) (prev : BlockHeader)
    (tx : Transaction) (ro : Output) (rk : TxKernel) (d : ℕ) (a : AssetT)
    (ia : IssuedAsset) (sg : Sig) (B : Block)
    (hsole : tx.body.assets = [AssetAction.new a ia sg])
    (hbuilt : fromReward now prev [tx] ro rk d = .ok B) :
    B.body.assets = [AssetAction.new a ia sg] ∧
    B.header.totalIssueOverage =
      (if cEqB prev.totalIssueOverage ZERO_OVERAGE_COMMITMENT then
        commitValueWithGenerator ia.supply a
       else commitSum [prev.totalIssueOverage,
         commitValueWithGenerator ia.supply a] []) := by
  by_cases hc : cEqB prev.totalIssueOverage ZERO_OVERAGE_COMMITMENT = true
  · simp only [fromReward, aggregate, Transaction.withOutput,
      Transaction.withKernel, List.flatMap_cons, List.flatMap_nil,
      List.append_nil, hsole, TransactionBody.mintOverageList,
      List.isEmpty_cons, Bool.false_eq_true, if_false, List.foldr_cons,
      List.foldr_nil, cadd_czero, AssetAction.overage,
      BlockHeader.addIssueOverage, hc, if_true, Block.cutThrough,
      cutThroughLists, TransactionBody.init, Except.ok.injEq] at hbuilt
    subst hbuilt
    simp [hc]
  · rw [Bool.not_eq_true] at hc
    simp only [fromReward, aggregate, Transaction.withOutput,
      Transaction.withKernel, List.flatMap_cons, List.flatMap_nil,
      List.append_nil, hsole, TransactionBody.mintOverageList,
      List.isEmpty_cons, Bool.false_eq_true, if_false, List.foldr_cons,
      List.foldr_nil, cadd_czero, AssetAction.overage,
      BlockHeader.addIssueOverage, hc, Bool.false_eq_true, if_false,
      Block.cutThrough, cutThroughLists, TransactionBody.init,
      Except.ok.injEq] at hbuilt
    subst hbuilt
    simp [hc]

deriving instance DecidableEq for Except

/-- C8: the per-block kernel offset used by validate is the additive
identity when the block's total kernel offset equals the previous header's
total, and otherwise the difference of the two totals. -/
theorem blockKernelOffset_delta (b : Block) (p : ℤ) :
    b.blockKernelOffset p =
      if b.header.totalKernelOffset = p then 0
      else b.header.totalKernelOffset - p := by
  rw [Block.blockKernelOffset]
  split_ifs with h
  · rfl
  · simp [sumKernelOffsets]

/-- C5: for two sequential blocks each minting one distinct asset as the
sole mint action, the second block's header total issue overage is the
commitment sum of the two per-asset issuance commitments. -/
theorem fromReward_two_mints_overage_sum (now1 now2 : ℤ)
    (prev : BlockHeader) (tx1 tx2 : Transaction) (ro1 ro2 : Output)
    (rk1 rk2 : TxKernel) (d1 d2 : ℕ) (a1 a2 : AssetT)
    (ia1 ia2 : IssuedAsset) (sg1 sg2 : Sig) (B1 B2 : Block)
    (_hdistinct : a1 ≠ a2)
    (hsup : ia1.supply ≠ 0)
    (hprev : prev.totalIssueOverage = ZERO_OVERAGE_COMMITMENT)
    (hsole1 : tx1.body.assets = [AssetAction.new a1 ia1 sg1])
    (hsole2 : tx2.body.assets = [AssetAction.new a2 ia2 sg2])
    (hb1 : fromReward now1 prev [tx1] ro1 rk1 d1 = .ok B1)
    (hb2 : fromReward now2 B1.header [tx2] ro2 rk2 d2 = .ok B2) :
    B2.header.totalIssueOverage =
      commitSum [commitValueWithGenerator ia1.supply a1,
        commitValueWithGenerator ia2.supply a2] [] := by
  obtain ⟨_, h1⟩ :=
    fromReward_sole_new now1 prev tx1 ro1 rk1 d1 a1 ia1 sg1 B1 hsole1 hb1
  simp only [hprev, cEqB_refl, if_true] at h1
  obtain ⟨_, h2⟩ :=
    fromReward_sole_new now2 B1.header tx2 ro2 rk2 d2 a2 ia2 sg2 B2 hsole2
      hb2
  have hfalse :
      cEqB B1.header.totalIssueOverage ZERO_OVERAGE_COMMITMENT = false := by
    rw [h1]
    exact cEqB_value_marker_false (ia1.supply : ℤ) a1 defaultAsset
      (by exact_mod_cast hsup)
  rw [hfalse] at h2
  simp only [Bool.false_eq_true, if_false] at h2
  rw [h2, h1]

/-- Example 64-byte asset encodings for two distinct issued assets. -/
def exAsset2 : AssetT := ⟨List.replicate 63 0 ++ [2], by simp⟩

/-- A second distinct example asset encoding. -/
def exAsset3 : AssetT := ⟨List.replicate 63 0 ++ [3], by simp⟩

/-- Example issued-asset record for the first minted asset. -/
def exIssued2 : IssuedAsset := ⟨100, exPk, false, exAsset2⟩

/-- Example issued-asset record for the second minted asset. -/
def exIssued3 : IssuedAsset := ⟨50, exPk, false, exAsset3⟩

/-- Correct owner signature over the first record. -/
def exSig2 : Sig := ⟨exPk, exIssued2.toBytes⟩

/-- Correct owner signature over the second record. -/
def exSig3 : Sig := ⟨exPk, exIssued3.toBytes⟩

/-- Output carrying the first asset's initial supply. -/
def exAssetOut2 : Output := ⟨.plain, commitValueWithGenerator 100 exAsset2, 0⟩

/-- Output carrying the second asset's initial supply. -/
def exAssetOut3 : Output := ⟨.plain, commitValueWithGenerator 50 exAsset3, 0⟩

/-- Transaction minting the first asset with a matching supply output. -/
def exTx2 : Transaction :=
  ⟨0, ⟨[], [exAssetOut2], [], [AssetAction.new exAsset2 exIssued2 exSig2]⟩⟩

/-- Transaction minting the second asset with a matching supply output. -/
def exTx3 : Transaction :=
  ⟨0, ⟨[], [exAssetOut3], [], [AssetAction.new exAsset3 exIssued3 exSig3]⟩⟩

/-- Example coinbase reward output committing to the block reward. -/
def exRewardOut : Output := ⟨.coinbase, commitValue (consensusReward 1 0), 0⟩

/-- Example coinbase reward kernel with a zero excess. -/
def exRewardKern : TxKernel := ⟨.coinbase, czero⟩

/-- Fallback block used only to extract a concrete Ok value. -/
def exFallbackBlock : Block := ⟨defaultBlockHeader, ⟨[], [], [], []⟩⟩

/-- Extracting the Ok value of a block computation. -/
def exceptGetD (e : Except Error Block) (dflt : Block) : Block :=
  match e with
  | .ok b => b
  | .error _ => dflt

/-- The concrete block minting the first example asset. -/
def exB1 : Block :=
  exceptGetD (fromReward 0 defaultBlockHeader [exTx2] exRewardOut
    exRewardKern 1) exFallbackBlock

/-- The concrete block minting the second example asset on top of the
first. -/
def exB2 : Block :=
  exceptGetD (fromReward 0 exB1.header [exTx3] exRewardOut exRewardKern 1)
    exFallbackBlock

/-- C5 witness: the two-block overage-sum law instantiated at two concrete
mints. -/
theorem fromReward_two_mints_overage_sum_witness :
    exAsset2 ≠ exAsset3 ∧ exIssued2.supply ≠ 0 ∧
    defaultBlockHeader.totalIssueOverage = ZERO_OVERAGE_COMMITMENT ∧
    exTx2.body.assets = [AssetAction.new exAsset2 exIssued2 exSig2] ∧
    exTx3.body.assets = [AssetAction.new exAsset3 exIssued3 exSig3] ∧
    fromReward 0 defaultBlockHeader [exTx2] exRewardOut exRewardKern 1 =
      .ok exB1 ∧
    fromReward 0 exB1.header [exTx3] exRewardOut exRewardKern 1 = .ok exB2 ∧
    exB2.header.totalIssueOverage =
      commitSum [commitValueWithGenerator exIssued2.supply exAsset2,
        commitValueWithGenerator exIssued3.supply exAsset3] [] :=
  ⟨by decide, by decide, rfl, rfl, rfl, by decide, by decide,
   fromReward_two_mints_overage_sum 0 0 defaultBlockHeader exTx2 exTx3
     exRewardOut exRewardOut exRewardKern exRewardKern 1 1 exAsset2 exAsset3
     exIssued2 exIssued3 exSig2 exSig3 exB1 exB2 (by decide) (by decide) rfl
     rfl rfl (by decide) (by decide)⟩

/-- C4 (amended): a correctly signed New action embedded as the sole mint
action of a block whose body balances with the issuance commitment makes the
built block pass full validation including the kernel-sum check, returning
the kernel-excess sum; the header's total issue overage equals exactly the
new asset's issuance commitment — the zero-overage baseline is replaced by
it, not summed with it. -/
theorem fromReward_sole_new_validates (now prevOff : ℤ) (prev : BlockHeader)
    (tx : Transaction) (ro : Output) (rk : TxKernel) (d : ℕ) (a : AssetT)
    (ia : IssuedAsset) (B : Block)
    (hprev : prev.totalIssueOverage = ZERO_OVERAGE_COMMITMENT)
    (hsole : tx.body.assets = [AssetAction.new a ia ⟨ia.owner, ia.toBytes⟩])
    (hbuilt : fromReward now prev [tx] ro rk d = .ok B)
    (hlocks : B.verifyKernelLockHeights = .ok ())
    (hcoin : B.verifyCoinbase = .ok ())
    (hbal : cEqB
      (sumCommitments B.inputsCommitted B.outputsCommitted B.header.overage)
      (cadd (if B.blockKernelOffset prevOff = 0 then
          csumList B.kernelsCommitted
        else cadd (csumList B.kernelsCommitted)
          (blindingGenCommit (B.blockKernelOffset prevOff)))
        (commitValueWithGenerator ia.supply a)) = true) :
    B.validate prevOff true = .ok (csumList B.kernelsCommitted) ∧
    B.header.totalIssueOverage = commitValueWithGenerator ia.supply a := by
  obtain ⟨hassets, hover⟩ :=
    fromReward_sole_new now prev tx ro rk d a ia ⟨ia.owner, ia.toBytes⟩ B
      hsole hbuilt
  simp only [hprev, cEqB_refl, if_true] at hover
  refine ⟨?_, hover⟩
  have hbody : bodyValidate true B.body = .ok () := by
    simp [bodyValidate, hassets, AssetAction.validate, AssetAction.isNew,
      AssetAction.validateNew, AssetAction.valid, sigVerify]
  have hmint : B.mintOverage =
      .ok (some (commitValueWithGenerator ia.supply a)) := by
    simp [Block.mintOverage, TransactionBody.mintOverageList, hassets,
      AssetAction.overage, cadd_czero]
  have hks : verifyKernelSums B.inputsCommitted B.outputsCommitted
      B.kernelsCommitted B.header.overage
      (some (commitValueWithGenerator ia.supply a))
      (B.blockKernelOffset prevOff) =
      .ok (sumCommitments B.inputsCommitted B.outputsCommitted
        B.header.overage, csumList B.kernelsCommitted) := by
    rw [verifyKernelSums]
    simp only [hbal, if_true]
  simp only [Block.validate, hbody, hlocks, hcoin, hmint, hks]

/-- C4 witness: the sole-mint validation law instantiated at the concrete
first mint block. -/
theorem fromReward_sole_new_validates_witness :
    defaultBlockHeader.totalIssueOverage = ZERO_OVERAGE_COMMITMENT ∧
    exTx2.body.assets =
      [AssetAction.new exAsset2 exIssued2 ⟨exIssued2.owner, exIssued2.toBytes⟩] ∧
    fromReward 0 defaultBlockHeader [exTx2] exRewardOut exRewardKern 1 =
      .ok exB1 ∧
    exB1.verifyKernelLockHeights = .ok () ∧
    exB1.verifyCoinbase = .ok () ∧
    cEqB (sumCommitments exB1.inputsCommitted exB1.outputsCommitted
      exB1.header.overage)
      (cadd (if exB1.blockKernelOffset 0 = 0 then
          csumList exB1.kernelsCommitted
        else cadd (csumList exB1.kernelsCommitted)
          (blindingGenCommit (exB1.blockKernelOffset 0)))
        (commitValueWithGenerator exIssued2.supply exAsset2)) = true ∧
    (exB1.validate 0 true = .ok (csumList exB1.kernelsCommitted) ∧
     exB1.header.totalIssueOverage =
       commitValueWithGenerator exIssued2.supply exAsset2) :=
  ⟨rfl, by decide, by decide, by decide, by decide, by decide,
   fromReward_sole_new_validates 0 0 defaultBlockHeader exTx2 exRewardOut
     exRewardKern 1 exAsset2 exIssued2 exB1 rfl (by decide) (by decide)
     (by decide) (by decide) (by decide)⟩

set_option maxRecDepth 4000 in
/-- C4 counterexample: the concrete mint block passes validation, yet its
total issue overage does not differ from the zero-overage baseline by the
issuance commitment — it is not the commitment sum of the baseline and the
issuance commitment, because the baseline is replaced rather than added. -/
theorem fromReward_sole_new_overage_not_baseline_sum :
    Block.validate exB1 0 true = .ok (csumList exB1.kernelsCommitted) ∧
    cEqB exB1.header.totalIssueOverage
      (commitSum [ZERO_OVERAGE_COMMITMENT,
        commitValueWithGenerator exIssued2.supply exAsset2] []) = false := by
  decide

theorem evalC_csumList (l : List Commitment) :
    evalC (csumList l) = (l.map (fun c => evalC c)).sum := by
  induction l with
  | nil => rfl
  | cons x t ih =>
      funext k
      have hx := evalC_append x (csumList t) k
      simp only [csumList, List.foldr_cons] at hx ⊢
      rw [hx, List.map_cons, List.sum_cons]
      simp only [csumList] at ih
      rw [ih]
      simp

theorem evalC_commitSum (pos neg : List Commitment) :
    evalC (commitSum pos neg) =
      (pos.map (fun c => evalC c)).sum - (neg.map (fun c => evalC c)).sum := by
  funext k
  rw [commitSum, evalC_append, evalC_cneg, evalC_csumList, evalC_csumList]
  simp [sub_eq_add_neg]

theorem sum_map_filter_split {α : Type} (f : α → ℕ → ℤ) (p : α → Bool)
    (l : List α) :
    ((l.filter p).map f).sum +
      ((l.filter (fun x => !(p x))).map f).sum = (l.map f).sum := by
  induction l with
  | nil => simp
  | cons x t ih =>
      by_cases hx : p x = true
      · simp only [List.filter_cons, hx, if_true, Bool.not_true,
          Bool.false_eq_true, if_false, List.map_cons, List.sum_cons]
        rw [add_assoc, ih]
      · rw [Bool.not_eq_true] at hx
        simp only [List.filter_cons, hx, Bool.not_false, if_true,
          Bool.false_eq_true, if_false, List.map_cons, List.sum_cons]
        rw [add_left_comm, ih]

theorem pairwise_evals_of_cEqB {α : Type} (commit : α → Commitment)
    (l : List α)
    (h : l.Pairwise (fun x y => cEqB (commit x) (commit y) = false)) :
    (l.map (fun x => evalC (commit x))).Pairwise
      (fun f g => f ≠ g) := by
  refine List.Pairwise.map _ ?_ h
  intro a b hab hcontra
  have : cEqB (commit a) (commit b) = true :=
    (cEqB_eq_true_iff _ _).mpr hcontra
  rw [hab] at this
  exact Bool.false_ne_true this

theorem removed_evals_eq (ins : List Input) (outs : List Output)
    (hndin : ins.Pairwise (fun x y => cEqB x.commit y.commit = false))
    (hndout : outs.Pairwise (fun x y => cEqB x.commit y.commit = false)) :
    ((outs.filter (fun o => ins.any (fun i =>
        cEqB i.commit o.commit))).map (fun o => evalC o.commit)).sum =
    ((ins.filter (fun i => outs.any (fun o =>
        cEqB i.commit o.commit))).map (fun i => evalC i.commit)).sum := by
  have hMO : ((outs.filter (fun o => ins.any (fun i =>
      cEqB i.commit o.commit))).map (fun o => evalC o.commit) :
      Multiset (ℕ → ℤ)) =
      ((ins.filter (fun i => outs.any (fun o =>
      cEqB i.commit o.commit))).map (fun i => evalC i.commit) :
      Multiset (ℕ → ℤ)) := by
    have hnod1 : ((outs.filter (fun o => ins.any (fun i =>
        cEqB i.commit o.commit))).map (fun o => evalC o.commit)).Nodup := by
      apply pairwise_evals_of_cEqB
      exact List.Pairwise.sublist (List.filter_sublist outs) hndout
    have hnod2 : ((ins.filter (fun i => outs.any (fun o =>
        cEqB i.commit o.commit))).map (fun i => evalC i.commit)).Nodup := by
      apply pairwise_evals_of_cEqB
      exact List.Pairwise.sublist (List.filter_sublist ins) hndin
    apply (Multiset.Nodup.ext (Multiset.coe_nodup.mpr hnod1)
      (Multiset.coe_nodup.mpr hnod2)).mpr
    intro x
    simp only [Multiset.mem_coe, List.mem_map, List.mem_filter,
      List.any_eq_true]
    constructor
    · rintro ⟨o, ⟨ho, i, hi, hio⟩, rfl⟩
      have hev : evalC i.commit = evalC o.commit :=
        (cEqB_eq_true_iff _ _).mp hio
      refine ⟨i, ⟨hi, o, ho, hio⟩, hev⟩
    · rintro ⟨i, ⟨hi, o, ho, hio⟩, rfl⟩
      have hev : evalC i.commit = evalC o.commit :=
        (cEqB_eq_true_iff _ _).mp hio
      refine ⟨o, ⟨ho, i, hi, hio⟩, hev.symm⟩
  have := congrArg Multiset.sum hMO
  rwa [Multiset.sum_coe, Multiset.sum_coe] at this

theorem cutThrough_sums_eq (ins : List Input) (outs : List Output)
    (hndin : ins.Pairwise (fun x y => cEqB x.commit y.commit = false))
    (hndout : outs.Pairwise (fun x y => cEqB x.commit y.commit = false)) :
    ((outs.filter (fun o => !(ins.any (fun i =>
        cEqB i.commit o.commit)))).map (fun o => evalC o.commit)).sum -
      ((ins.filter (fun i => !(outs.any (fun o =>
        cEqB i.commit o.commit)))).map (fun i => evalC i.commit)).sum =
    (outs.map (fun o => evalC o.commit)).sum -
      (ins.map (fun i => evalC i.commit)).sum := by
  have hsplit1 := sum_map_filter_split (fun o : Output => evalC o.commit)
    (fun o => ins.any (fun i => cEqB i.commit o.commit)) outs
  have hsplit2 := sum_map_filter_split (fun i : Input => evalC i.commit)
    (fun i => outs.any (fun o => cEqB i.commit o.commit)) ins
  have hrem := removed_evals_eq ins outs hndin hndout
  rw [← hsplit1, ← hsplit2, hrem]
  abel

theorem map_map_evalC {α : Type} (f : α → Commitment) (l : List α) :
    (l.map f).map (fun c => evalC c) = l.map (fun x => evalC (f x)) := by
  rw [List.map_map]
  rfl

theorem sumCommitments_cutThrough_evalC (ins : List Input)
    (outs : List Output) (ov : ℤ)
    (hndin : ins.Pairwise (fun x y => cEqB x.commit y.commit = false))
    (hndout : outs.Pairwise (fun x y => cEqB x.commit y.commit = false)) :
    evalC (sumCommitments
      ((ins.filter (fun i => !(outs.any (fun o =>
        cEqB i.commit o.commit)))).map (fun i => i.commit))
      ((outs.filter (fun o => !(ins.any (fun i =>
        cEqB i.commit o.commit)))).map (fun o => o.commit)) ov) =
    evalC (sumCommitments (ins.map (fun i => i.commit))
      (outs.map (fun o => o.commit)) ov) := by
  have hcore := cutThrough_sums_eq ins outs hndin hndout
  simp only [sumCommitments]
  split_ifs with h1 h2 <;>
    [exact absurd h2 (by omega); skip; skip; skip] <;>
    rw [evalC_commitSum, evalC_commitSum] <;>
    simp only [List.map_append, List.sum_append, map_map_evalC,
      List.map_cons, List.map_nil, List.sum_cons, List.sum_nil,
      add_zero] <;>
    linear_combination hcore

theorem filter_coinbase_cutThrough (ins : List Input) (outs : List Output)
    (hcb : ∀ o ∈ outs, o.isCoinbase = true →
      ∀ i ∈ ins, cEqB i.commit o.commit = false) :
    (outs.filter (fun o => !(ins.any (fun i =>
        cEqB i.commit o.commit)))).filter (fun o => o.isCoinbase) =
      outs.filter (fun o => o.isCoinbase) := by
  rw [List.filter_filter]
  apply List.filter_congr
  intro o ho
  cases hc : o.isCoinbase
  · simp [hc]
  · have hany : ins.any (fun i => cEqB i.commit o.commit) = false := by
      rw [List.any_eq_false]
      intro i hi
      simp [hcb o ho hc i hi]
    simp [hc, hany]

theorem verifyKernelSums_snd_congr (ins1 outs1 ins2 outs2 kerns :
    List Commitment) (ov : ℤ) (mo : Option Commitment) (off : ℤ)
    (h : evalC (sumCommitments ins1 outs1 ov) =
      evalC (sumCommitments ins2 outs2 ov)) :
    (match verifyKernelSums ins1 outs1 kerns ov mo off with
     | .error e => (Except.error e : Except Error Commitment)
     | .ok r => .ok r.2) =
    (match verifyKernelSums ins2 outs2 kerns ov mo off with
     | .error e => .error e
     | .ok r => .ok r.2) := by
  simp only [verifyKernelSums]
  rw [cEqB_congr _ _ _ h]
  split_ifs with hch <;> rfl

theorem validate_congr (x y : Block) (prevOff : ℤ) (vk : Bool)
    (hassets : x.body.assets = y.body.assets)
    (hkern : x.body.kernels = y.body.kernels)
    (hheader : x.header = y.header)
    (hvc : x.verifyCoinbase = y.verifyCoinbase)
    (hutxo : evalC (sumCommitments x.inputsCommitted x.outputsCommitted
        x.header.overage) =
      evalC (sumCommitments y.inputsCommitted y.outputsCommitted
        y.header.overage)) :
    x.validate prevOff vk = y.validate prevOff vk := by
  have hbv : bodyValidate vk x.body = bodyValidate vk y.body := by
    simp only [bodyValidate, hassets]
  have hlk : x.verifyKernelLockHeights = y.verifyKernelLockHeights := by
    simp only [Block.verifyKernelLockHeights, hkern, hheader]
  have hmo : x.mintOverage = y.mintOverage := by
    simp only [Block.mintOverage, hassets]
  have hko : x.blockKernelOffset prevOff = y.blockKernelOffset prevOff := by
    simp only [Block.blockKernelOffset, hheader]
  have hkc : x.kernelsCommitted = y.kernelsCommitted := by
    simp only [Block.kernelsCommitted, hkern]
  rw [hheader] at hutxo
  simp only [Block.validate, hbv, hlk, hvc, hmo, hko, hkc, hheader]
  cases bodyValidate vk y.body with
  | error e => rfl
  | ok u1 =>
  cases y.verifyKernelLockHeights with
  | error e => rfl
  | ok u2 =>
  cases y.verifyCoinbase with
  | error e => rfl
  | ok u3 =>
  cases y.mintOverage with
  | error e => rfl
  | ok mo =>
  exact verifyKernelSums_snd_congr x.inputsCommitted x.outputsCommitted
    y.inputsCommitted y.outputsCommitted y.kernelsCommitted
    y.header.overage mo (y.blockKernelOffset prevOff) hutxo

/-- C7: for a block whose input and output commitments are pairwise
distinct and whose coinbase outputs are not spent within the same body,
running cut-through first does not change the result of validate — in
particular the kernel-excess sum commitment it returns — because removing
an output spent by an input of the same body leaves the commitment-sum
balance checked by the kernel-sum engine unchanged. -/
theorem validate_cutThrough_invariant (b : Block) (prevOff : ℤ) (vk : Bool)
    (b2 : Block)
    (hndin : b.body.inputs.Pairwise
      (fun x y => cEqB x.commit y.commit = false))
    (hndout : b.body.outputs.Pairwise
      (fun x y => cEqB x.commit y.commit = false))
    (hcb : ∀ o ∈ b.body.outputs, o.isCoinbase = true →
      ∀ i ∈ b.body.inputs, cEqB i.commit o.commit = false)
    (hcut : b.cutThrough = .ok b2) :
    b2.validate prevOff vk = b.validate prevOff vk := by
  simp only [Block.cutThrough, cutThroughLists, TransactionBody.init,
    Except.ok.injEq] at hcut
  subst hcut
  apply validate_congr
  · rfl
  · rfl
  · rfl
  · simp only [Block.verifyCoinbase, TransactionBody.fee]
    rw [filter_coinbase_cutThrough b.body.inputs b.body.outputs hcb]
  · exact sumCommitments_cutThrough_evalC b.body.inputs b.body.outputs
      (BlockHeader.overage b.header) hndin hndout

/-- Example block containing an output spent by an input of the same body. -/
def exCutBlock : Block :=
  ⟨{ defaultBlockHeader with height := 1 },
   ⟨[⟨.plain, blindingGenCommit 7⟩],
    [⟨.plain, blindingGenCommit 7, 0⟩, exRewardOut],
    [exRewardKern], []⟩⟩

/-- The same block after cut-through. -/
def exCutBlock2 : Block := exceptGetD exCutBlock.cutThrough exFallbackBlock

/-- C7 witness: cut-through invariance of validate instantiated at a
concrete block with one matched input/output pair. -/
theorem validate_cutThrough_invariant_witness :
    exCutBlock.body.inputs.Pairwise
      (fun x y => cEqB x.commit y.commit = false) ∧
    exCutBlock.body.outputs.Pairwise
      (fun x y => cEqB x.commit y.commit = false) ∧
    (∀ o ∈ exCutBlock.body.outputs, o.isCoinbase = true →
      ∀ i ∈ exCutBlock.body.inputs, cEqB i.commit o.commit = false) ∧
    exCutBlock.cutThrough = .ok exCutBlock2 ∧
    exCutBlock2.validate 0 true = exCutBlock.validate 0 true :=
  ⟨by decide, by decide, by decide, by decide,
   validate_cutThrough_invariant exCutBlock 0 true exCutBlock2 (by decide)
     (by decide) (by decide) (by decide)⟩

theorem mem_hsInsert {α : Type} [DecidableEq α] (l : List α) (y x : α) :
    x ∈ (if y ∈ l then l else l ++ [y]) ↔ x ∈ l ∨ x = y := by
  split_ifs with hy
  · constructor
    · exact fun h => Or.inl h
    · rintro (h | rfl)
      · exact h
      · exact hy
  · simp [List.mem_append]

theorem nodup_hsInsert {α : Type} [DecidableEq α] (l : List α) (y : α)
    (h : l.Nodup) : (if y ∈ l then l else l ++ [y]).Nodup := by
  split_ifs with hy
  · exact h
  · simp [List.nodup_append, h, hy]

theorem mem_hsExtend {α : Type} [DecidableEq α] (l xs : List α) (x : α) :
    x ∈ hsExtend l xs ↔ x ∈ l ∨ x ∈ xs := by
  induction xs generalizing l with
  | nil => simp [hsExtend]
  | cons y t ih =>
      simp only [hsExtend, List.foldl_cons] at ih ⊢
      rw [ih, mem_hsInsert]
      simp [List.mem_cons]
      tauto

theorem nodup_hsExtend {α : Type} [DecidableEq α] (l xs : List α)
    (h : l.Nodup) : (hsExtend l xs).Nodup := by
  induction xs generalizing l with
  | nil => exact h
  | cons y t ih =>
      simp only [hsExtend, List.foldl_cons] at ih ⊢
      exact ih _ (nodup_hsInsert l y h)

theorem mem_foldl_hsExtend {α : Type} [DecidableEq α]
    (f : Transaction → List α) (txs : List Transaction) (init : List α)
    (x : α) :
    x ∈ txs.foldl (fun s tx => hsExtend s (f tx)) init ↔
      x ∈ init ∨ ∃ tx ∈ txs, x ∈ f tx := by
  induction txs generalizing init with
  | nil => simp
  | cons t rest ih =>
      simp only [List.foldl_cons]
      rw [ih, mem_hsExtend]
      simp only [List.mem_cons]
      constructor
      · rintro ((h | h) | ⟨tx, htx, hx⟩)
        · exact Or.inl h
        · exact Or.inr ⟨t, Or.inl rfl, h⟩
        · exact Or.inr ⟨tx, Or.inr htx, hx⟩
      · rintro (h | ⟨tx, (rfl | htx), hx⟩)
        · exact Or.inl (Or.inl h)
        · exact Or.inl (Or.inr hx)
        · exact Or.inr ⟨tx, htx, hx⟩

theorem nodup_foldl_hsExtend {α : Type} [DecidableEq α]
    (f : Transaction → List α) (txs : List Transaction) (init : List α)
    (h : init.Nodup) :
    (txs.foldl (fun s tx => hsExtend s (f tx)) init).Nodup := by
  induction txs generalizing init with
  | nil => exact h
  | cons t rest ih =>
      simp only [List.foldl_cons]
      exact ih _ (nodup_hsExtend _ _ h)

/-- C10: hydrating a compact block with any transaction set always succeeds
without any signature, range-proof or sum verification, returns the compact
block's header unchanged, and a body that is the deduplicated set-semantics
union of the transactions' parts with the compact block's full coinbase
outputs and kernels, rebuilt via cut-through. -/
theorem hydrateFrom_union_cutThrough (cb : CompactBlock)
    (txs : List Transaction) :
    ∃ bl, hydrateFrom cb txs = .ok bl ∧
      bl.header = cb.header ∧
      bl.body.inputs.Nodup ∧ bl.body.outputs.Nodup ∧
      bl.body.kernels.Nodup ∧ bl.body.assets.Nodup ∧
      (∀ k, k ∈ bl.body.kernels ↔
        (∃ tx ∈ txs, k ∈ tx.body.kernels) ∨ k ∈ cb.kernFull) ∧
      (∀ a, a ∈ bl.body.assets ↔ ∃ tx ∈ txs, a ∈ tx.body.assets) ∧
      (∀ i, i ∈ bl.body.inputs ↔
        ((∃ tx ∈ txs, i ∈ tx.body.inputs) ∧
          ¬ ∃ o, (((∃ tx ∈ txs, o ∈ tx.body.outputs) ∨ o ∈ cb.outFull) ∧
            cEqB i.commit o.commit = true))) ∧
      (∀ o, o ∈ bl.body.outputs ↔
        (((∃ tx ∈ txs, o ∈ tx.body.outputs) ∨ o ∈ cb.outFull) ∧
          ¬ ∃ i, ((∃ tx ∈ txs, i ∈ tx.body.inputs) ∧
            cEqB i.commit o.commit = true))) := by
  refine ⟨_, rfl, rfl, ?_, ?_, ?_, ?_, ?_, ?_, ?_, ?_⟩
  · exact List.Nodup.filter _
      (nodup_foldl_hsExtend (fun tx => tx.body.inputs) txs [] (by simp))
  · exact List.Nodup.filter _ (nodup_hsExtend _ _
      (nodup_foldl_hsExtend (fun tx => tx.body.outputs) txs [] (by simp)))
  · exact nodup_hsExtend _ _
      (nodup_foldl_hsExtend (fun tx => tx.body.kernels) txs [] (by simp))
  · exact nodup_foldl_hsExtend (fun tx => tx.body.assets) txs [] (by simp)
  · intro k
    simp only [hydrateFrom, Block.cutThrough, cutThroughLists,
      TransactionBody.init, mem_hsExtend, mem_foldl_hsExtend,
      List.not_mem_nil, false_or]
  · intro a
    simp only [hydrateFrom, Block.cutThrough, cutThroughLists,
      TransactionBody.init, mem_foldl_hsExtend, List.not_mem_nil, false_or]
  · intro i
    simp only [hydrateFrom, Block.cutThrough, cutThroughLists,
      TransactionBody.init, List.mem_filter, mem_foldl_hsExtend,
      List.not_mem_nil, false_or, Bool.not_eq_true']
    constructor
    · rintro ⟨hmem, hany⟩
      refine ⟨hmem, ?_⟩
      rintro ⟨o, ho, heq⟩
      refine List.any_eq_false.mp hany o ?_ heq
      rw [mem_hsExtend, mem_foldl_hsExtend]
      simpa using ho
    · rintro ⟨hmem, hno⟩
      refine ⟨hmem, ?_⟩
      apply List.any_eq_false.mpr
      intro o ho heq
      rw [mem_hsExtend, mem_foldl_hsExtend] at ho
      exact hno ⟨o, by simpa using ho, heq⟩
  · intro o
    simp only [hydrateFrom, Block.cutThrough, cutThroughLists,
      TransactionBody.init, List.mem_filter, mem_hsExtend,
      mem_foldl_hsExtend, List.not_mem_nil, false_or, Bool.not_eq_true']
    constructor
    · rintro ⟨hmem, hany⟩
      refine ⟨hmem, ?_⟩
      rintro ⟨i, hi, heq⟩
      refine List.any_eq_false.mp hany i ?_ heq
      rw [mem_foldl_hsExtend]
      simpa using hi
    · rintro ⟨hmem, hno⟩
      refine ⟨hmem, ?_⟩
      apply List.any_eq_false.mpr
      intro i hi heq
      rw [mem_foldl_hsExtend] at hi
      exact hno ⟨i, by simpa using hi, heq⟩

end Kepler
